import Mathlib

/-!
Shallow embedding of `typescript-quickcheck` (`src/generator.ts` and the
`Arbitrary`/shrink module) in Lean 4.

Machine integers are modelled as `Nat` bit patterns taken modulo `2^32`
(an `Int32Array` cell stores exactly such a 32-bit pattern); values read
back out of the state are converted to signed integers (`Int`) exactly as
JavaScript reads an `Int32Array` cell.  A JavaScript expression whose JS
value would be `NaN` (such as `x % 0`) is modelled with `Option`: `none`
stands for the `NaN`/`undefined` outcome.  A generator is a function from
the PRNG state and the size parameter to a value paired with the updated
state; the in-place mutation of the `Int32Array` in the source becomes
explicit state passing.
-/

namespace TSQC

/-- The 4-word PRNG state (`RngState = Int32Array` of length 4 in the source);
each field holds the 32-bit pattern of the corresponding array cell. -/
structure RngState where
  a : Nat
  b : Nat
  c : Nat
  d : Nat
deriving DecidableEq, Repr

/-- Truncate to a 32-bit pattern (what storing into an `Int32Array` cell does). -/
def mask32 (n : Nat) : Nat := n % 2^32

/-- 32-bit left rotation: `(x << k) | (x >>> (32 - k))` on a 32-bit pattern. -/
def rotl (x k : Nat) : Nat := mask32 (mask32 x <<< k) ||| (mask32 x >>> (32 - k))

/-- Read a 32-bit pattern as the signed value a JS `Int32Array` access yields. -/
def toSigned (n : Nat) : Int :=
  if n % 2^32 < 2^31 then ((n % 2^32 : Nat) : Int) else ((n % 2^32 : Nat) : Int) - 2^32

/-- `randomInt32(rng)` from `src/generator.ts` (Bob Jenkins' small PRNG):
`e = rng[0] - rotl(rng[1], 27); rng[0] = rng[1] ^ rotl(rng[2], 17);
rng[1] = rng[2] + rng[3]; rng[2] = rng[3] + e; rng[3] = e + rng[0]; return rng[3]`.
Subtraction/addition/xor are performed on patterns modulo `2^32`, which is
congruent to the JS computation because every value is stored back into the
`Int32Array` (wrapping) before being observed. -/
def randomInt32 (s : RngState) : Int × RngState :=
  let e  := mask32 (mask32 s.a + 2^32 - rotl s.b 27)
  let a2 := mask32 s.b ^^^ rotl s.c 17
  let b2 := mask32 (s.c + s.d)
  let c2 := mask32 (s.d + e)
  let d2 := mask32 (e + a2)
  (toSigned d2, ⟨a2, b2, c2, d2⟩)

/-- The 32-bit pattern of an integer seed (JS stores the seed into the
`Int32Array`, i.e. takes it modulo `2^32`). -/
def seedPat (seed : Int) : Nat := (seed % ((2^32 : Nat) : Int)).toNat

/-- Run `randomInt32` `n` times, discarding outputs (the warm-up loop of `makeRng`). -/
def warmup : Nat → RngState → RngState
  | 0, s => s
  | n+1, s => warmup n (randomInt32 s).2

/-- `makeRng(seed)`: state `[0xf1ea5eed, seed, seed, seed]`, then 20 discarded draws. -/
def makeRng (seed : Int) : RngState :=
  warmup 20 ⟨0xf1ea5eed, seedPat seed, seedPat seed, seedPat seed⟩

/-- A generator: `(rng, size) => value`, with the state threaded explicitly. -/
abbrev Gen (α : Type) : Type := RngState → Nat → α × RngState

/-- `int`: draws directly from `randomInt32`. -/
def int : Gen Int := fun rng _ => randomInt32 rng

/-- `nat`: `randomInt32(rng) + 2147483648`. -/
def nat : Gen Int := fun rng _ =>
  let (r, rng2) := randomInt32 rng
  (r + 2147483648, rng2)

/-- `interval(min, max)` from `src/generator.ts`.  `magnitude = max - min`;
for `magnitude < 2^32` the value is `((randomInt32(rng) + 2147483648) % magnitude) + min`
(JS remainder of the non-negative dividend, i.e. `Int.emod`; `x % 0` is `NaN`,
modelled as `none`); otherwise `Math.floor(float.generate(rng) * magnitude) + min`
where `float` is `(randomInt32(rng) + 2147483648) / 2^32`, i.e. exactly
`(r + 2^31) * magnitude / 2^32` rounded down (the float branch is modelled with
exact rational arithmetic). -/
def intervalVal (min max r : Int) : Option Int :=
  if max - min < ((2^32 : Nat) : Int) then
    if max - min = 0 then none
    else some ((r + 2147483648) % (max - min) + min)
  else some ((((r + 2147483648).toNat * (max - min).toNat) / 2^32 : Nat) + min)

/-- `interval` draws exactly one `randomInt32` in either branch (directly in
the modulo branch, via `float.generate` in the large-magnitude branch) and
then applies the pure arithmetic of `intervalVal`. -/
def interval (min max : Int) : Gen (Option Int) := fun rng _ =>
  let (r, rng2) := randomInt32 rng
  (intervalVal min max r, rng2)

/-- `logsize(size) = max(round(log2(size + 1)), 0)`.  For a positive integer `m`,
`round(log2 m)` is the unique `k` with `2^(2k-1) <= m^2 < 2^(2k+1)` (no ties occur
since `2^(k+1/2)` is irrational), equivalently `2^(2k) <= 2*m^2 < 2^(2k+2)`,
i.e. `k = floor(log2 (2*m^2)) / 2`. -/
def logsize (size : Nat) : Nat := Nat.log2 (2 * (size + 1)^2) / 2

/-- The fill loop shared by `array` and `nearray`:
`for (let i = 0; i < length; i++) output[i] = gen.generate(rng, size)`. -/
def genList (g : Gen α) (size : Nat) : Nat → RngState → List α × RngState
  | 0, rng => ([], rng)
  | n+1, rng =>
    let (x, rng2) := g rng size
    let (xs, rng3) := genList g size n rng2
    (x :: xs, rng3)

/-- Continuation of `array`/`nearray` after the length draw: when the drawn
length is `NaN` (`none`), `new Array(NaN)` throws a `RangeError` in JS,
modelled as `none`; otherwise the fill loop of `genList` runs. -/
def fillFromDraw (g : Gen α) (size : Nat) :
    Option Int × RngState → Option (List α) × RngState
  | (none, rng2) => (none, rng2)
  | (some len, rng2) =>
    let q := genList g size len.toNat rng2
    (some q.1, q.2)

/-- `array(gen)`: length drawn by `interval(0, logsize(size)).generate(rng)`,
then each slot filled with `gen` at the same size. -/
def array (g : Gen α) : Gen (Option (List α)) := fun rng size =>
  fillFromDraw g size (interval 0 (logsize size) rng size)

/-- `nearray(gen)`: like `array` with length from `interval(1, logsize(size) + 1)`. -/
def nearray (g : Gen α) : Gen (Option (List α)) := fun rng size =>
  fillFromDraw g size (interval 1 (logsize size + 1) rng size)

/-- Continuation of `elements` after the index draw: a `NaN` index (empty
input list) makes the JS array access yield `undefined`, modelled as `none`,
as is an out-of-range access. -/
def elementsStep (elems : List α) : Option Int × RngState → Option α × RngState
  | (none, rng2) => (none, rng2)
  | (some i, rng2) => (elems[i.toNat]?, rng2)

/-- `elements(elems)`: `elems[interval(0, elems.length).generate(rng)]`. -/
def elements (elems : List α) : Gen (Option α) := fun rng size =>
  elementsStep elems (interval 0 elems.length rng size)

/-- The first `n` iterations of `suchThat`'s unbounded `while (true)` redraw
loop.  `none` means the loop has not produced a value within `n` iterations
(the source imposes no bound at all, so `none` for every `n` means the JS
loop never returns). -/
def suchThatN (g : Gen α) (pred : α → Bool) : Nat → Gen (Option α)
  | 0 => fun rng _ => (none, rng)
  | n+1 => fun rng size =>
    let (x, rng2) := g rng size
    if pred x then (some x, rng2) else suchThatN g pred n rng2 size

/-- The swap step of `shuffle`:
`tmp = out[i]; out[i] = out[k]; out[k] = tmp` (with `k = i + j`).
Out-of-range indices leave the list unchanged (they never occur in `shuffle`). -/
def listSwap (l : List α) (i k : Nat) : List α :=
  match l[i]?, l[k]? with
  | some a, some b => (l.set i b).set k a
  | _, _ => l

theorem listSwap_length (l : List α) (i k : Nat) : (listSwap l i k).length = l.length := by
  unfold listSwap
  cases h1 : l[i]? <;> cases h2 : l[k]? <;> simp

/-- The Fisher-Yates loop of `shuffle`:
`for (let i = 0; i < out.length - 1; i++) { j = interval(0, out.length - i).generate(rng); swap out[i] and out[i+j]; }`.
Inside the loop `out.length - i >= 2`, so the `interval` draw never yields
`NaN`: the `getD 0` below merely totalizes the unreachable `NaN` case. -/
def shuffleGo (l : List α) (i : Nat) (rng : RngState) : List α × RngState :=
  if i < l.length - 1 then
    let draw := interval 0 ((l.length : Int) - (i : Int)) rng 0
    shuffleGo (listSwap l i (i + (draw.1.getD 0).toNat)) (i + 1) draw.2
  else (l, rng)
termination_by l.length - i
decreasing_by simp [listSwap_length]; omega

/-- `shuffle(xs)`: copies the input (`xs.slice()`) and runs the swap loop on
the copy; in the pure model the copy is implicit in value passing. -/
def shuffle (xs : List α) : Gen (List α) := fun rng _ => shuffleGo xs 0 rng

/-- A tiny heap model for the frame property of `shuffle`: the store is a
list of arrays, a reference is an index into it.  `shuffle` reads the array
at `r`, allocates a fresh cell for the `slice()` copy, and the swap loop
writes only through the fresh reference, so the final store is the original
store with the shuffled copy appended. -/
def shuffleHeap (st : List (List α)) (r : Nat) (rng : RngState) :
    List (List α) × Nat × RngState :=
  let arr := (st[r]?).getD []
  let q := shuffleGo arr 0 rng
  (st ++ [q.1], st.length, q.2)

/-- `reduce((acc, x) => acc + x, 0)` over a weight list. -/
def sumList (l : List Int) : Int := l.foldl (· + ·) 0

/-- The bucket-selection loop of both `frequency` and `partitions`:
walk the cumulative weights, return the index of the first weight whose
cumulative sum exceeds `choice`.  `none` when the loop falls through
(in `partitions` the input is then silently dropped); comparisons with a
`NaN` choice are handled by the caller. -/
def pick (freq : List Int) (choice : Int) (acc : Int) : Option Nat :=
  match freq with
  | [] => none
  | f :: rest => if acc + f > choice then some 0 else (pick rest choice (acc + f)).map (· + 1)

/-- `output[i].push(x)` on the bucket list. -/
def appendAt (buckets : List (List α)) (i : Nat) (x : α) : List (List α) :=
  match buckets, i with
  | [], _ => []
  | b :: bs, 0 => (b ++ [x]) :: bs
  | b :: bs, i+1 => b :: appendAt bs i x

/-- Bucket update for one input of `partitions`: a `NaN` choice (`sum = 0`)
makes every `acc > choice` comparison false, so the input lands in no
bucket; likewise when the cumulative-weight walk falls through. -/
def placeInput (freq : List Int) (buckets : List (List α)) (x : α) :
    Option Int → List (List α)
  | none => buckets
  | some choice =>
    match pick freq choice 0 with
    | some i => appendAt buckets i x
    | none => buckets

/-- The per-input loop of `partitions`: draw `choice = interval(0, sum)`,
walk cumulative weights, push the input into the first bucket whose
cumulative weight exceeds `choice`. -/
def partitionsLoop (freq : List Int) (sum : Int) (inputs : List α)
    (buckets : List (List α)) (rng : RngState) : List (List α) × RngState :=
  match inputs with
  | [] => (buckets, rng)
  | x :: rest =>
    let draw := interval 0 sum rng 0
    partitionsLoop freq sum rest (placeInput freq buckets x draw.1) draw.2

/-- `partitions(inputs, freq)` for an explicit weight list:
`count = freq.length`, buckets start empty, each input is assigned by the
weighted choice loop. -/
def partitions (inputs : List α) (freq : List Int) : Gen (List (List α)) := fun rng _ =>
  partitionsLoop freq (sumList freq) inputs (List.replicate freq.length []) rng

/-- `partitions(inputs, count)` for a bucket count: the source builds the
uniform weight list `Array(count).map(() => 100)` and proceeds as above. -/
def partitionsCount (inputs : List α) (count : Nat) : Gen (List (List α)) :=
  partitions inputs (List.replicate count 100)

/-- JS `x | 0` (ToInt32): the signed reading of the low 32 bits. -/
def toInt32 (x : Int) : Int := toSigned (x % ((2^32 : Nat) : Int)).toNat

namespace smaller

/-- The `do { i >>= 1; output.push(i); } while (i > 0)` loop of `smaller.nat`
(`>>` is the arithmetic shift, i.e. floor division by 2 on an int32 value). -/
def natGo (i : Int) : List Int :=
  let i2 := i / 2
  if 0 < i2 then i2 :: natGo i2 else [i2]
termination_by i.toNat
decreasing_by omega

/-- `smaller.nat(x)`: `i = x | 0`, then the halving loop. -/
def nat (x : Int) : List Int := natGo (toInt32 x)

/-- The loop of `smaller.string`: `do { i >>= 1; output.push(x.substr(0, i)); } while (i > 0)`
(strings are modelled as lists of characters; `substr(0, i)` is `take i`). -/
def stringGo (x : List Char) (i : Nat) : List (List Char) :=
  let i2 := i / 2
  if 0 < i2 then x.take i2 :: stringGo x i2 else [x.take i2]

/-- `smaller.string(x)`: the halving loop started at `x.length`. -/
def string (x : List Char) : List (List Char) := stringGo x x.length

/-- The loop of `smaller.nestring`: as `stringGo` but continuing `while (i > 1)`. -/
def nestringGo (x : List Char) (i : Nat) : List (List Char) :=
  let i2 := i / 2
  if 1 < i2 then x.take i2 :: nestringGo x i2 else [x.take i2]

/-- `smaller.nestring(x)`: the halving loop started at `x.length`, stopping at 1. -/
def nestring (x : List Char) : List (List Char) := nestringGo x x.length

end smaller

/-- A sequence of `generate` calls on one generator, threading one state
through all of them, returning the output sequence (one call per listed size). -/
def runCalls (g : Gen α) : List Nat → RngState → List α
  | [], _ => []
  | size :: rest, rng =>
    let (x, rng2) := g rng size
    x :: runCalls g rest rng2

/-! ### Helper lemmas -/

theorem toSigned_bounds (n : Nat) : -2^31 ≤ toSigned n ∧ toSigned n < 2^31 := by
  unfold toSigned
  have hm : n % 2^32 < 2^32 := Nat.mod_lt n (by norm_num)
  split <;> omega

theorem randomInt32_fst_bounds (s : RngState) :
    -2^31 ≤ (randomInt32 s).1 ∧ (randomInt32 s).1 < 2^31 := by
  unfold randomInt32
  exact toSigned_bounds _

/-- The pure arithmetic of `interval` stays in range when the drawn value is
a signed 32-bit integer. -/
theorem intervalVal_range (min max r : Int) (h : min < max)
    (hr1 : -2^31 ≤ r) (hr2 : r < 2^31) :
    ∃ x, intervalVal min max r = some x ∧ min ≤ x ∧ x < max := by
  unfold intervalVal
  by_cases hlt : max - min < ((2^32 : Nat) : Int)
  · have hne : max - min ≠ 0 := by push_cast at hlt; omega
    refine ⟨(r + 2147483648) % (max - min) + min, ?_, ?_, ?_⟩
    · rw [if_pos hlt, if_neg hne]
    · have := Int.emod_nonneg (r + 2147483648) hne
      omega
    · have := Int.emod_lt_of_pos (r + 2147483648) (show 0 < max - min by omega)
      omega
  · have hu : (r + 2147483648).toNat < 2^32 := by omega
    have hMpos : 0 < (max - min).toNat := by omega
    have hdiv : (r + 2147483648).toNat * (max - min).toNat / 2^32 < (max - min).toNat := by
      rw [Nat.div_lt_iff_lt_mul (by norm_num : 0 < 2^32)]
      calc (r + 2147483648).toNat * (max - min).toNat
          < 2^32 * (max - min).toNat :=
            Nat.mul_lt_mul_of_lt_of_le hu (Nat.le_refl _) hMpos
        _ = (max - min).toNat * 2^32 := Nat.mul_comm _ _
    refine ⟨((r + 2147483648).toNat * (max - min).toNat / 2^32 : Nat) + min, ?_, ?_, ?_⟩
    · rw [if_neg hlt]
    · omega
    · omega

/-- Shared range fact about `interval`: for `min < max` it returns `some x`
with `min <= x < max` and some successor state. -/
theorem interval_range_aux (min max : Int) (h : min < max) (rng : RngState) (size : Nat) :
    ∃ x rng2, interval min max rng size = (some x, rng2) ∧ min ≤ x ∧ x < max := by
  rcases hr : randomInt32 rng with ⟨r, rng2⟩
  have hb := randomInt32_fst_bounds rng
  have hb1 : -2^31 ≤ r := by rw [hr] at hb; exact hb.1
  have hb2 : r < 2^31 := by rw [hr] at hb; exact hb.2
  obtain ⟨x, hx, hx1, hx2⟩ := intervalVal_range min max r h hb1 hb2
  exact ⟨x, rng2, by simp [interval, hr, hx], hx1, hx2⟩

theorem intervalVal_eq_none (min max r : Int) (h : max - min = 0) :
    intervalVal min max r = none := by
  unfold intervalVal
  rw [if_pos (by push_cast; omega : max - min < ((2^32 : Nat) : Int)), if_pos h]

/-- When the magnitude is zero, `interval` consumes one draw and yields the
`NaN` outcome. -/
theorem interval_magnitude_zero (min max : Int) (h : max - min = 0)
    (rng : RngState) (size : Nat) :
    interval min max rng size = (none, (randomInt32 rng).2) := by
  rcases hr : randomInt32 rng with ⟨r, rng2⟩
  rw [interval, hr]
  simp [intervalVal_eq_none min max r h, hr]

theorem genList_length (g : Gen α) (size : Nat) :
    ∀ (n : Nat) (rng : RngState), (genList g size n rng).1.length = n := by
  intro n
  induction n with
  | zero => intro rng; rfl
  | succ n ih =>
    intro rng
    rcases h1 : g rng size with ⟨x, rng2⟩
    rcases h2 : genList g size n rng2 with ⟨xs, rng3⟩
    have hx := ih rng2
    rw [h2] at hx
    simp [genList, h1, h2, hx]

theorem logsize_pos (size : Nat) (h : 1 ≤ size) : 1 ≤ logsize size := by
  unfold logsize
  have h4 : 4 ≤ 2 * (size + 1)^2 := by nlinarith
  have h2 : 2 ≤ Nat.log2 (2 * (size + 1)^2) :=
    (Nat.le_log2 (by omega)).mpr (by norm_num; omega)
  omega

/-! ### Claims -/

/-- C1.  Determinism: for every generator `g`, seed `s` and size sequence, two
runs that each build their state with `makeRng(s)` and then perform the same
sequence of `generate` calls produce identical output sequences.  All
randomness of the embedded code flows through the explicitly threaded
`RngState`, so equal initial states give equal output sequences. -/
theorem runCalls_deterministic (g : Gen α) (s : Int) (sizes : List Nat)
    (r1 r2 : RngState) (h1 : r1 = makeRng s) (h2 : r2 = makeRng s) :
    runCalls g sizes r1 = runCalls g sizes r2 := by
  rw [h1, h2]

/-- Witness for C1 at `g = int`, seed 5, two generate calls. -/
theorem runCalls_deterministic_instance :
    runCalls int [100, 100] (makeRng 5) = runCalls int [100, 100] (makeRng 5) :=
  runCalls_deterministic int 5 [100, 100] (makeRng 5) (makeRng 5) rfl rfl

/-- C2.  Range: for `min < max`, `interval(min, max).generate` yields an
integer `x` with `min <= x < max`, for every state and size. -/
theorem interval_mem_range (min max : Int) (h : min < max) (rng : RngState) (size : Nat) :
    ∃ x rng2, interval min max rng size = (some x, rng2) ∧ min ≤ x ∧ x < max :=
  interval_range_aux min max h rng size

/-- Witness for C2 at `min = 3`, `max = 10`. -/
theorem interval_mem_range_instance :
    ∃ x rng2, interval 3 10 ⟨1, 2, 3, 4⟩ 0 = (some x, rng2) ∧ 3 ≤ x ∧ x < 10 :=
  interval_mem_range 3 10 (by norm_num) ⟨1, 2, 3, 4⟩ 0

/-- C3.  The `while (true)` redraw loop of `suchThat` has no iteration bound:
with a never-satisfied predicate, no finite number `n` of iterations produces
a value (so the JS loop never returns and no exhaustion failure is ever
reported, contrary to the claimed contract). -/
theorem suchThat_false_never_returns (g : Gen α) (n : Nat) (rng : RngState) (size : Nat) :
    (suchThatN g (fun _ => false) n rng size).1 = none := by
  induction n generalizing rng with
  | zero => rfl
  | succ n ih =>
    rcases h1 : g rng size with ⟨x, rng2⟩
    simpa [suchThatN, h1] using ih rng2

/-- C4.  `elements` on the empty list: the index draw is `interval(0, 0)`,
whose `% 0` is `NaN`, and the array access yields `undefined` (modelled
`none`) — no descriptive configuration error is raised. -/
theorem elements_empty_undefined (rng : RngState) (size : Nat) :
    (elements ([] : List Int) rng size).1 = none := by
  unfold elements
  simp only [List.length_nil, Nat.cast_zero]
  rw [interval_magnitude_zero 0 0 (by norm_num) rng size]
  simp [elementsStep]

/-- C8.  At the minimal inputs the shrink strategies break the shrink
contract: `smaller.nat 0` returns `[0]` (a candidate equal to the input),
`smaller.string ""` returns `[""]` (likewise), and `smaller.nestring` on a
one-character string returns `[""]`, a candidate of length 0. -/
theorem shrink_minimal_inputs_violate_contract :
    smaller.nat 0 = [0] ∧ smaller.string [] = [[]] ∧
    smaller.nestring ['a'] = [([] : List Char)] := by
  refine ⟨?_, ?_, ?_⟩
  · rw [smaller.nat, show toInt32 0 = 0 by rfl, smaller.natGo]
    norm_num
  · rw [smaller.string, smaller.stringGo]
    norm_num
  · rw [smaller.nestring, smaller.nestringGo]
    norm_num

/-- C9.  Numeric shrink: `smaller.nat 8 = [4, 2, 1, 0]`. -/
theorem smaller_nat_eight : smaller.nat 8 = [4, 2, 1, 0] := by
  rw [smaller.nat, show toInt32 8 = 8 by rfl, smaller.natGo]
  norm_num
  rw [smaller.natGo]
  norm_num
  rw [smaller.natGo]
  norm_num
  rw [smaller.natGo]
  norm_num

theorem log2_two : Nat.log2 2 = 1 := by
  rw [Nat.log2]
  norm_num
  rw [Nat.log2]
  norm_num

theorem logsize_zero : logsize 0 = 0 := by
  unfold logsize
  norm_num [log2_two]

/-- C5 counterexample.  At size 0 (`logsize 0 = 0`) the length draw of both
`array` and `nearray` is `NaN` and `new Array(NaN)` throws a `RangeError`:
no array is returned at all, so the claimed bounds fail for size 0. -/
theorem array_nearray_size_zero_fails :
    (array int ⟨1, 2, 3, 4⟩ 0).1 = none ∧ (nearray int ⟨1, 2, 3, 4⟩ 0).1 = none := by
  constructor
  · unfold array
    rw [show ((logsize 0 : Nat) : Int) = 0 by rw [logsize_zero]; norm_num]
    rw [interval_magnitude_zero 0 0 (by norm_num) _ 0]
    simp [fillFromDraw]
  · unfold nearray
    rw [show ((logsize 0 : Nat) : Int) = 0 by rw [logsize_zero]; norm_num]
    rw [interval_magnitude_zero 1 (0 + 1) (by norm_num) _ 0]
    simp [fillFromDraw]

/-- C5 (amended: size at least 1, where `logsize size >= 1`).  `array`
returns a list of length in `[0, logsize size]` and `nearray` a list of
length in `[1, logsize size + 1]`. -/
theorem array_nearray_length_bounds (g : Gen α) (rng : RngState) (size : Nat)
    (h : 1 ≤ size) :
    (∃ l rng2, array g rng size = (some l, rng2) ∧ l.length ≤ logsize size) ∧
    (∃ l rng2, nearray g rng size = (some l, rng2) ∧
      1 ≤ l.length ∧ l.length ≤ logsize size + 1) := by
  have hpos := logsize_pos size h
  constructor
  · obtain ⟨x, rng2, hx, hx0, hxlt⟩ :=
      interval_range_aux 0 (logsize size : Int) (by exact_mod_cast hpos) rng size
    rcases hg : genList g size x.toNat rng2 with ⟨xs, rng3⟩
    refine ⟨xs, rng3, ?_, ?_⟩
    · unfold array
      rw [hx]
      simp only [fillFromDraw]
      rw [hg]
    · have hlen := genList_length g size x.toNat rng2
      rw [hg] at hlen
      simp only at hlen
      omega
  · obtain ⟨x, rng2, hx, hx0, hxlt⟩ :=
      interval_range_aux 1 ((logsize size : Int) + 1)
        (by omega) rng size
    rcases hg : genList g size x.toNat rng2 with ⟨xs, rng3⟩
    refine ⟨xs, rng3, ?_, ?_, ?_⟩
    · unfold nearray
      rw [hx]
      simp only [fillFromDraw]
      rw [hg]
    · have hlen := genList_length g size x.toNat rng2
      rw [hg] at hlen
      simp only at hlen
      omega
    · have hlen := genList_length g size x.toNat rng2
      rw [hg] at hlen
      simp only at hlen
      omega

/-- Witness for C5 at `g = int`, size 1. -/
theorem array_nearray_length_bounds_instance :
    (∃ l rng2, array int ⟨1, 2, 3, 4⟩ 1 = (some l, rng2) ∧ l.length ≤ logsize 1) ∧
    (∃ l rng2, nearray int ⟨1, 2, 3, 4⟩ 1 = (some l, rng2) ∧
      1 ≤ l.length ∧ l.length ≤ logsize 1 + 1) :=
  array_nearray_length_bounds int ⟨1, 2, 3, 4⟩ 1 (by norm_num)

/-- Replacing the element at `j` and re-inserting the replaced element at the
head is a permutation. -/
theorem set_perm_aux (t : List α) : ∀ (j : Nat) (a b : α), t[j]? = some b →
    List.Perm (b :: t.set j a) (a :: t) := by
  induction t with
  | nil =>
    intro j a b h
    simp at h
  | cons c t ih =>
    intro j a b h
    cases j with
    | zero =>
      simp only [List.getElem?_cons_zero, Option.some.injEq] at h
      subst h
      show List.Perm (c :: a :: t) (a :: c :: t)
      exact List.Perm.swap a c t
    | succ j =>
      simp only [List.getElem?_cons_succ] at h
      show List.Perm (b :: c :: t.set j a) (a :: c :: t)
      exact ((List.Perm.swap c b (t.set j a)).trans
        (List.Perm.cons c (ih j a b h))).trans (List.Perm.swap a c t)

/-- The swap step of the Fisher-Yates loop permutes the list. -/
theorem listSwap_perm (l : List α) : ∀ (i k : Nat), List.Perm (listSwap l i k) l := by
  induction l with
  | nil =>
    intro i k
    simp [listSwap]
  | cons c t ih =>
    intro i k
    rcases h1 : (c :: t)[i]? with _ | a
    · simp [listSwap, h1]
    · rcases h2 : (c :: t)[k]? with _ | b
      · simp [listSwap, h1, h2]
      · simp only [listSwap, h1, h2]
        cases i with
        | zero =>
          simp only [List.getElem?_cons_zero, Option.some.injEq] at h1
          subst h1
          cases k with
          | zero =>
            simp only [List.getElem?_cons_zero, Option.some.injEq] at h2
            subst h2
            exact List.Perm.refl _
          | succ j =>
            simp only [List.getElem?_cons_succ] at h2
            show List.Perm (b :: t.set j c) (c :: t)
            exact set_perm_aux t j c b h2
        | succ i =>
          simp only [List.getElem?_cons_succ] at h1
          cases k with
          | zero =>
            simp only [List.getElem?_cons_zero, Option.some.injEq] at h2
            subst h2
            show List.Perm (a :: t.set i c) (c :: t)
            exact set_perm_aux t i c a h1
          | succ j =>
            simp only [List.getElem?_cons_succ] at h2
            show List.Perm (c :: (t.set i b).set j a) (c :: t)
            have h3 := ih i j
            unfold listSwap at h3
            simp only [h1, h2] at h3
            exact List.Perm.cons c h3

/-- The whole Fisher-Yates loop permutes the list (fuel-indexed induction on
the remaining iteration count). -/
theorem shuffleGo_perm (n : Nat) : ∀ (l : List α) (i : Nat) (rng : RngState),
    l.length - i ≤ n → List.Perm (shuffleGo l i rng).1 l := by
  induction n with
  | zero =>
    intro l i rng hn
    rw [shuffleGo, if_neg (by omega)]
  | succ n ih =>
    intro l i rng hn
    by_cases h : i < l.length - 1
    · rw [shuffleGo, if_pos h]
      refine (ih _ _ _ ?_).trans (listSwap_perm l i _)
      rw [listSwap_length]
      omega
    · rw [shuffleGo, if_neg h]

/-- C6.  Permutation: for every array `xs` (including empty and singleton
arrays) and every state, `shuffle(xs).generate` returns an array of the same
length whose multiset of elements equals the multiset of `xs`. -/
theorem shuffle_preserves_multiset (xs : List α) (rng : RngState) (size : Nat) :
    ((shuffle xs rng size).1).length = xs.length ∧
    ((shuffle xs rng size).1 : Multiset α) = (xs : Multiset α) := by
  have hp : List.Perm (shuffle xs rng size).1 xs :=
    shuffleGo_perm xs.length xs 0 rng (by omega)
  exact ⟨hp.length_eq, Multiset.coe_eq_coe.mpr hp⟩

/-- C10.  Frame property of `shuffle`: the caller's array is copied
(`array.slice()`) before the Fisher-Yates loop, and all writes go to the
fresh copy, so after the draw the caller's cell of the store is unchanged
(same list, hence same length and same elements at the same positions);
only the fresh cell and the `RngState` differ. -/
theorem shuffleHeap_frame (st : List (List α)) (r : Nat) (rng : RngState)
    (h : r < st.length) :
    ((shuffleHeap st r rng).1)[r]? = st[r]? := by
  unfold shuffleHeap
  exact List.getElem?_append_left h

/-- Witness for C10 at a one-cell store. -/
theorem shuffleHeap_frame_instance :
    ((shuffleHeap [[(1 : Int), 2, 3]] 0 ⟨1, 2, 3, 4⟩).1)[0]? = [[(1 : Int), 2, 3]][0]? :=
  shuffleHeap_frame [[(1 : Int), 2, 3]] 0 ⟨1, 2, 3, 4⟩ (by norm_num)

theorem foldl_add_shift (l : List Int) : ∀ (init : Int),
    l.foldl (· + ·) init = init + l.foldl (· + ·) 0 := by
  induction l with
  | nil => intro init; simp
  | cons f rest ih =>
    intro init
    show List.foldl (· + ·) (init + f) rest = init + List.foldl (· + ·) (0 + f) rest
    rw [ih (init + f), ih (0 + f)]
    ring

theorem sumList_cons (f : Int) (rest : List Int) :
    sumList (f :: rest) = f + sumList rest := by
  show List.foldl (· + ·) (0 + f) rest = f + sumList rest
  rw [foldl_add_shift rest (0 + f)]
  unfold sumList
  ring

theorem sumList_nonneg (l : List Int) (h : ∀ f ∈ l, 0 < f) : 0 ≤ sumList l := by
  induction l with
  | nil => simp [sumList]
  | cons f rest ih =>
    rw [sumList_cons]
    have h1 : 0 < f := h f (by simp)
    have h2 : 0 ≤ sumList rest := ih (fun g hg => h g (by simp [hg]))
    omega

theorem sumList_pos (l : List Int) (hne : l ≠ []) (h : ∀ f ∈ l, 0 < f) :
    0 < sumList l := by
  match l, hne with
  | f :: rest, _ =>
    rw [sumList_cons]
    have h1 : 0 < f := h f (by simp)
    have h2 : 0 ≤ sumList rest := sumList_nonneg rest (fun g hg => h g (by simp [hg]))
    omega

/-- The cumulative-weight walk finds a bucket whenever the choice lies below
the total weight (this is the `break` that the source relies on). -/
theorem pick_some (freq : List Int) : ∀ (choice acc : Int), acc ≤ choice →
    choice < acc + sumList freq →
    ∃ i, pick freq choice acc = some i ∧ i < freq.length := by
  induction freq with
  | nil =>
    intro choice acc h1 h2
    simp [sumList] at h2
    omega
  | cons f rest ih =>
    intro choice acc h1 h2
    by_cases hc : acc + f > choice
    · exact ⟨0, by simp [pick, hc], by simp⟩
    · rw [sumList_cons] at h2
      obtain ⟨i, hi, hilt⟩ := ih choice (acc + f) (by omega) (by omega)
      refine ⟨i + 1, ?_, by simp; omega⟩
      simp [pick, hc, hi]

theorem appendAt_length (buckets : List (List α)) : ∀ (i : Nat) (x : α),
    (appendAt buckets i x).length = buckets.length := by
  induction buckets with
  | nil => intro i x; rfl
  | cons b bs ih =>
    intro i x
    cases i with
    | zero => rfl
    | succ i => simp [appendAt, ih i x]

theorem appendAt_get_self (buckets : List (List α)) : ∀ (i : Nat) (x : α) (b : List α),
    buckets[i]? = some b → (appendAt buckets i x)[i]? = some (b ++ [x]) := by
  induction buckets with
  | nil =>
    intro i x b h
    simp at h
  | cons hd tl ih =>
    intro i x b h
    cases i with
    | zero =>
      simp at h
      subst h
      simp [appendAt]
    | succ i =>
      simp only [List.getElem?_cons_succ] at h
      simpa [appendAt] using ih i x b h

theorem appendAt_get_ne (buckets : List (List α)) : ∀ (i k : Nat) (x : α), k ≠ i →
    (appendAt buckets i x)[k]? = buckets[k]? := by
  induction buckets with
  | nil => intro i k x _; rfl
  | cons hd tl ih =>
    intro i k x hne
    cases i with
    | zero =>
      cases k with
      | zero => exact absurd rfl hne
      | succ k => simp [appendAt]
    | succ i =>
      cases k with
      | zero => simp [appendAt]
      | succ k => simpa [appendAt] using ih i k x (by omega)

/-- Pushing into bucket `i` adds exactly `x` to the concatenation of all
buckets, up to permutation. -/
theorem appendAt_join_perm (buckets : List (List α)) : ∀ (i : Nat) (x : α),
    i < buckets.length →
    List.Perm (appendAt buckets i x).flatten (x :: buckets.flatten) := by
  induction buckets with
  | nil =>
    intro i x h
    simp at h
  | cons b tl ih =>
    intro i x h
    cases i with
    | zero =>
      show List.Perm ((b ++ [x]) ++ tl.flatten) (x :: (b ++ tl.flatten))
      rw [List.append_assoc, List.singleton_append]
      exact List.perm_middle
    | succ i =>
      show List.Perm (b ++ (appendAt tl i x).flatten) (x :: (b ++ tl.flatten))
      have h1 := List.Perm.append_left b (ih i x (by simpa using h))
      exact h1.trans List.perm_middle

theorem placeInput_length (freq : List Int) (buckets : List (List α)) (x : α) :
    ∀ (oc : Option Int), (placeInput freq buckets x oc).length = buckets.length := by
  intro oc
  cases oc with
  | none => rfl
  | some choice =>
    unfold placeInput
    cases hp : pick freq choice 0 with
    | none => simp [hp]
    | some i => simp [hp, appendAt_length]

/-- One `partitions` step either leaves a bucket unchanged or pushes `x`
onto its end. -/
theorem placeInput_get (freq : List Int) (buckets : List (List α)) (x : α)
    (oc : Option Int) (k : Nat) (b : List α) (hk : buckets[k]? = some b) :
    (placeInput freq buckets x oc)[k]? = some b ∨
    (placeInput freq buckets x oc)[k]? = some (b ++ [x]) := by
  cases oc with
  | none => exact Or.inl hk
  | some choice =>
    unfold placeInput
    cases hp : pick freq choice 0 with
    | none =>
      left
      simp only [hp]
      exact hk
    | some i =>
      by_cases hik : k = i
      · subst hik
        right
        simp only [hp]
        exact appendAt_get_self buckets k x b hk
      · left
        simp only [hp]
        rw [appendAt_get_ne buckets i k x hik]
        exact hk

/-- With an in-range choice the input is pushed into a valid bucket. -/
theorem placeInput_inrange (freq : List Int) (buckets : List (List α)) (x : α)
    (choice : Int) (h0 : 0 ≤ choice) (hlt : choice < sumList freq) :
    ∃ i, i < freq.length ∧
      placeInput freq buckets x (some choice) = appendAt buckets i x := by
  obtain ⟨i, hpick, hilt⟩ := pick_some freq choice 0 h0 (by omega)
  refine ⟨i, hilt, ?_⟩
  unfold placeInput
  simp [hpick]

theorem partitionsLoop_length (freq : List Int) (sum : Int) :
    ∀ (inputs : List α) (buckets : List (List α)) (rng : RngState),
    ((partitionsLoop freq sum inputs buckets rng).1).length = buckets.length := by
  intro inputs
  induction inputs with
  | nil => intro buckets rng; rfl
  | cons x rest ih =>
    intro buckets rng
    show ((partitionsLoop freq sum rest
        (placeInput freq buckets x (interval 0 sum rng 0).1)
        (interval 0 sum rng 0).2).1).length = buckets.length
    rw [ih, placeInput_length]

/-- Main multiset invariant of the `partitions` loop: with positive weights
every input is placed in exactly one bucket, so the concatenation of the
final buckets is a permutation of the initial contents plus all inputs. -/
theorem partitionsLoop_flatten_perm (freq : List Int) (sum : Int)
    (hpos : ∀ f ∈ freq, 0 < f) (hne : freq ≠ []) (hsum : sum = sumList freq) :
    ∀ (inputs : List α) (buckets : List (List α)) (rng : RngState),
    buckets.length = freq.length →
    List.Perm ((partitionsLoop freq sum inputs buckets rng).1).flatten
      (buckets.flatten ++ inputs) := by
  intro inputs
  induction inputs with
  | nil =>
    intro buckets rng hlen
    simp [partitionsLoop]
  | cons x rest ih =>
    intro buckets rng hlen
    have hsumpos : 0 < sum := hsum ▸ sumList_pos freq hne hpos
    obtain ⟨choice, rng2, hdraw, hc0, hclt⟩ :=
      interval_range_aux 0 sum (by omega) rng 0
    obtain ⟨i, hilt, hplace⟩ :=
      placeInput_inrange freq buckets x choice hc0 (hsum ▸ hclt)
    show List.Perm ((partitionsLoop freq sum rest
        (placeInput freq buckets x (interval 0 sum rng 0).1)
        (interval 0 sum rng 0).2).1).flatten (buckets.flatten ++ x :: rest)
    rw [hdraw]
    show List.Perm ((partitionsLoop freq sum rest
        (placeInput freq buckets x (some choice)) rng2).1).flatten
      (buckets.flatten ++ x :: rest)
    rw [hplace]
    have hstep := ih (appendAt buckets i x) rng2 (by rw [appendAt_length]; exact hlen)
    refine hstep.trans ?_
    have h1 : List.Perm ((appendAt buckets i x).flatten ++ rest)
        ((x :: buckets.flatten) ++ rest) :=
      List.Perm.append_right rest (appendAt_join_perm buckets i x (by omega))
    exact h1.trans List.perm_middle.symm

/-- Order invariant of the `partitions` loop: each final bucket is its
initial contents followed by a subsequence of the processed inputs. -/
theorem partitionsLoop_get_sublist (freq : List Int) (sum : Int) :
    ∀ (inputs : List α) (buckets : List (List α)) (rng : RngState) (k : Nat) (b : List α),
    buckets[k]? = some b →
    ∃ t, ((partitionsLoop freq sum inputs buckets rng).1)[k]? = some (b ++ t) ∧
      t.Sublist inputs := by
  intro inputs
  induction inputs with
  | nil =>
    intro buckets rng k b hk
    exact ⟨[], by simpa [partitionsLoop] using hk, List.nil_sublist []⟩
  | cons x rest ih =>
    intro buckets rng k b hk
    show ∃ t, ((partitionsLoop freq sum rest
        (placeInput freq buckets x (interval 0 sum rng 0).1)
        (interval 0 sum rng 0).2).1)[k]? = some (b ++ t) ∧ t.Sublist (x :: rest)
    rcases placeInput_get freq buckets x (interval 0 sum rng 0).1 k b hk with hcase | hcase
    · obtain ⟨t, ht, hs⟩ := ih _ _ k b hcase
      exact ⟨t, ht, List.Sublist.cons x hs⟩
    · obtain ⟨t, ht, hs⟩ := ih _ _ k (b ++ [x]) hcase
      refine ⟨x :: t, ?_, List.Sublist.cons₂ x hs⟩
      rw [List.append_assoc, List.singleton_append] at ht
      exact ht

/-- C7 (amended: positive bucket count / positive weight list).  With a
non-empty list of positive weights (the count form yields the uniform
weight list `replicate count 100`), `partitions` returns one bucket per
weight, the concatenation of all buckets equals the inputs as a multiset
(each input in exactly one bucket), and every bucket is a subsequence of
the inputs (relative order preserved). -/
theorem partitions_integrity (inputs : List α) (freq : List Int) (rng : RngState)
    (size : Nat) (hpos : ∀ f ∈ freq, 0 < f) (hne : freq ≠ []) :
    ((partitions inputs freq rng size).1).length = freq.length ∧
    (((partitions inputs freq rng size).1).flatten : Multiset α) = (inputs : Multiset α) ∧
    ∀ b ∈ (partitions inputs freq rng size).1, b.Sublist inputs := by
  have heq : partitions inputs freq rng size
      = partitionsLoop freq (sumList freq) inputs (List.replicate freq.length []) rng := rfl
  refine ⟨?_, ?_, ?_⟩
  · rw [heq, partitionsLoop_length]
    simp
  · rw [heq]
    have hp := partitionsLoop_flatten_perm freq (sumList freq) hpos hne rfl inputs
      (List.replicate freq.length []) rng (by simp)
    rw [List.flatten_replicate_nil, List.nil_append] at hp
    exact Multiset.coe_eq_coe.mpr hp
  · intro b hb
    rw [heq] at hb
    obtain ⟨k, hk⟩ := List.mem_iff_getElem?.mp hb
    have hklt : k < freq.length := by
      have h1 := (List.getElem?_eq_some_iff.mp hk).1
      rw [partitionsLoop_length] at h1
      simpa using h1
    have hk0 : (List.replicate freq.length ([] : List α))[k]? = some [] := by
      simp [List.getElem?_replicate, hklt]
    obtain ⟨t, ht, hs⟩ := partitionsLoop_get_sublist freq (sumList freq) inputs
      (List.replicate freq.length []) rng k [] hk0
    rw [List.nil_append] at ht
    rw [hk] at ht
    obtain rfl : b = t := by injection ht
    exact hs

/-- Witness for C7 at three inputs and weights `[1, 2]`. -/
theorem partitions_integrity_instance :
    ((partitions [(10 : Int), 20, 30] [1, 2] ⟨1, 2, 3, 4⟩ 0).1).length
        = ([1, 2] : List Int).length ∧
    ((((partitions [(10 : Int), 20, 30] [1, 2] ⟨1, 2, 3, 4⟩ 0).1).flatten : List Int)
        : Multiset Int) = (([10, 20, 30] : List Int) : Multiset Int) ∧
    ∀ b ∈ (partitions [(10 : Int), 20, 30] [1, 2] ⟨1, 2, 3, 4⟩ 0).1,
      b.Sublist [10, 20, 30] :=
  partitions_integrity [10, 20, 30] [1, 2] ⟨1, 2, 3, 4⟩ 0 (by decide) (by decide)

/-- C7 counterexample.  With bucket count 0 (an allowed "bucket count" under
the claim as stated) the weight list is empty, the choice draw is `NaN`,
every input is silently dropped, and the concatenation of the zero buckets
is empty rather than the input multiset. -/
theorem partitions_zero_buckets_drops_inputs :
    ¬ ((((partitionsCount ([0] : List Int) 0 ⟨1, 2, 3, 4⟩ 0).1).flatten : Multiset Int)
      = (([0] : List Int) : Multiset Int)) := by
  decide

end TSQC
